import Mathlib

/-!
Verification of the column-translation core of the rdb_app data-cleaning
pipeline (src/src/transformation/translate_columns.py).

The embedding mirrors the source:
* cells of a column are `Option String` (a missing value is `none`);
* the external language detector and translation provider are oracles of
  type `String → Option String` (`none` models the call raising);
* the two per-column caches and the provider-call counter form `TransState`;
* `translateGroup` embeds the inner function `translate_group`;
* `similarTexts` / `groupLoop` / `groupTexts` embed the greedy
  seed-anchored grouping over a precomputed similarity matrix
  (the matrix itself is produced by the external TF-IDF library and is
  taken as a parameter `sim : Nat → Nat → ℚ`);
* `runGroupsColAux` / `runColumn` embed the per-column orchestration:
  pre-allocation of the output list, dispatch of one `translateGroup`
  per group, and the per-row write-back of each finished group;
* `translateLoopDF` / `translateColumnsDF` embed the outer DataFrame
  loop that adds one "T_"-prefixed column per processed column.
-/

/-- State shared by the group-translation tasks of one column run:
the translation cache, the language-detection cache (both association
lists, most recent write first, mirroring dict overwrite semantics
under lookup), and the number of provider calls made so far. -/
structure TransState where
  tCache : List (String × String)
  lCache : List (String × String)
  calls : Nat
deriving Repr, DecidableEq

/-- Python `str.strip()`: drop leading and trailing whitespace. -/
def pyStrip (s : String) : String :=
  ⟨((s.data.dropWhile Char.isWhitespace).reverse.dropWhile Char.isWhitespace).reverse⟩

/-- Association-list lookup: first (most recent) binding wins,
mirroring a Python dict updated by assignment. -/
def alookup (k : String) : List (String × String) → Option String
  | [] => none
  | (a, b) :: t => if a = k then some b else alookup k t

/-- Python `min(group, key=len)`: the shortest string, first one on ties
(empty string on an empty list where Python would raise). -/
def minByLen : List String → String
  | [] => ""
  | t :: ts => ts.foldl (fun acc x => if x.length < acc.length then x else acc) t

/-- The language-detection block of `translate_group` (lines 207 to 216):
consult the detection cache, otherwise call the detector; a successful
detection is cached, a raising detection yields `none` and caches nothing. -/
def detectStep (detectO : String → Option String) (st : TransState) (s : String) :
    Option String × TransState :=
  match alookup s st.lCache with
  | some l => (some l, st)
  | none =>
    match detectO s with
    | some l => (some l, { st with lCache := (s, l) :: st.lCache })
    | none => (none, st)

/-- The guarded detection of `translate_group`: language detection runs
only for strings longer than 3 characters (line 207). -/
def detectPhase (detectO : String → Option String) (st : TransState) (s : String) :
    Option String × TransState :=
  if 3 < s.length then detectStep detectO st s else (none, st)

/-- Embedding of `translate_group` (lines 187 to 242). Returns the
member-to-translation mapping, the status string, and the new state. -/
def translateGroup (target : String) (detectO transO : String → Option String)
    (st : TransState) (group : List String) :
    List (String × String) × String × TransState :=
  let representative := minByLen group
  let str_value := pyStrip representative
  match alookup str_value st.tCache with
  | some cached => (group.map (fun t => (t, cached)), "cached", st)
  | none =>
    let p := detectPhase detectO st str_value
    if p.1 = some target then
      (group.map (fun t => (t, str_value)), "skipped",
        { p.2 with tCache := (str_value, str_value) :: p.2.tCache })
    else
      match transO str_value with
      | some tr =>
        (group.map (fun t => (t, tr)), "translated",
          { p.2 with
            tCache := group.foldl (fun c t => (t, tr) :: c) p.2.tCache,
            calls := p.2.calls + 1 })
      | none =>
        (group.map (fun t => (t, "NA")), "error",
          { p.2 with calls := p.2.calls + 1 })

/-- For seed index `i`, the texts at all indices `j` with
`similarity_matrix[i][j] >= threshold` (line 171 to 172). -/
def similarTexts (sim : Nat → Nat → ℚ) (th : ℚ) (texts : List String) (i : Nat) :
    List String :=
  ((List.range texts.length).filter (fun j => th ≤ sim i j)).map
    (fun j => texts.getD j "")

/-- The greedy grouping loop (lines 166 to 176): walk the indices in
order, skip texts already grouped, otherwise emit the seed-similarity
group and mark all its members used. -/
def groupLoop (sim : Nat → Nat → ℚ) (th : ℚ) (texts : List String) :
    List Nat → List String → List (List String)
  | [], _ => []
  | i :: rest, used =>
    if texts.getD i "" ∈ used then
      groupLoop sim th texts rest used
    else
      similarTexts sim th texts i ::
        groupLoop sim th texts rest (used ++ similarTexts sim th texts i)

/-- Embedding of the SimilarityGrouper (lines 163 to 176). -/
def groupTexts (sim : Nat → Nat → ℚ) (th : ℚ) (texts : List String) :
    List (List String) :=
  groupLoop sim th texts (List.range texts.length) []

/-- A cell is empty when it is null or blank after trimming (line 118). -/
def isEmptyCell : Option String → Bool
  | none => true
  | some s => pyStrip s == ""

/-- The trimmed text of a cell (line 126). -/
def cellText : Option String → String
  | none => ""
  | some s => pyStrip s

/-- `text_to_indices[t]`: the row indices of the non-empty cells whose
trimmed text is `t`, in row order (lines 124 to 131). -/
def textToIndices (col : List (Option String)) (t : String) : List Nat :=
  (List.range col.length).filter
    (fun i => !isEmptyCell (col.getD i none) && cellText (col.getD i none) == t)

/-- The trimmed texts of the non-empty cells, in row order. -/
def nonEmptyTexts (col : List (Option String)) : List String :=
  (col.filter (fun c => !isEmptyCell c)).map cellText

/-- First-seen deduplication, mirroring insertion order of dict keys. -/
def firstSeen (seen : List String) : List String → List String
  | [] => []
  | t :: ts => if t ∈ seen then firstSeen seen ts else t :: firstSeen (t :: seen) ts

/-- `unique_texts = list(text_to_indices.keys())` (line 142): the distinct
trimmed non-empty values in first-seen order. -/
def uniqueTexts (col : List (Option String)) : List String :=
  firstSeen [] (nonEmptyTexts col)

/-- Apply a list of row writes to the pre-allocated output list
(`translated_values[idx] = translation`). -/
def applyWrites (ws : List (Nat × String)) (l : List String) : List String :=
  ws.foldl (fun acc p => acc.set p.1 p.2) l

/-- The row writes induced by one finished group result (lines 264 to 267):
for each member text present in `text_to_indices`, write its translation
into every row index of that text. -/
def groupWrites (col : List (Option String)) (tr : List (String × String)) :
    List (Nat × String) :=
  (tr.map (fun p => (textToIndices col p.1).map (fun i => (i, p.2)))).flatten

/-- Sequential processing of the group tasks of one column: each group is
translated against the shared state and its result written back into the
output list. The group list is a parameter, so every completion order of
the thread pool is one instance. -/
def runGroupsColAux (target : String) (detectO transO : String → Option String)
    (col : List (Option String)) :
    List (List String) → List String → TransState → List String × TransState
  | [], out, st => (out, st)
  | g :: gs, out, st =>
    runGroupsColAux target detectO transO col gs
      (applyWrites (groupWrites col (translateGroup target detectO transO st g).1) out)
      ((translateGroup target detectO transO st g).2.2)

/-- The state thread of a run over a list of groups, starting from `st`. -/
def runGroups (target : String) (detectO transO : String → Option String)
    (st : TransState) : List (List String) → TransState
  | [] => st
  | g :: gs =>
    runGroups target detectO transO
      ((translateGroup target detectO transO st g).2.2) gs

/-- Embedding of the per-column orchestration (lines 107 to 294): empty
columns short-circuit to a column of empty strings with no calls;
otherwise the unique texts are grouped (singleton fallback when
vectorization fails, modelled by `simO = none`) and the groups are
translated and written back. Fresh caches per column. -/
def runColumn (target : String) (detectO transO : String → Option String)
    (simO : Option (Nat → Nat → ℚ)) (col : List (Option String)) :
    List String × TransState :=
  if uniqueTexts col = [] then (List.replicate col.length "", ⟨[], [], 0⟩)
  else
    runGroupsColAux target detectO transO col
      (match simO with
       | some sim => groupTexts sim (85 / 100) (uniqueTexts col)
       | none => (uniqueTexts col).map (fun t => [t]))
      (List.replicate col.length "") ⟨[], [], 0⟩

/-- A table as an ordered association of column names to columns. -/
abbrev DataFrame := List (String × List (Option String))

/-- The column names of a table. -/
def colNames (df : DataFrame) : List String := df.map Prod.fst

/-- Read a column by name (empty when absent). -/
def getCol (df : DataFrame) (c : String) : List (Option String) :=
  match df.find? (fun p => p.1 == c) with
  | some p => p.2
  | none => []

/-- `df[name] = values`: replace the column in place when the name exists,
append it otherwise, mirroring pandas column assignment. -/
def setCol : DataFrame → String → List (Option String) → DataFrame
  | [], c, v => [(c, v)]
  | (a, b) :: t, c, v => if a = c then (c, v) :: t else (a, b) :: setCol t c v

/-- Column-selection validation (lines 84 to 87): keep the provided names
that exist; raise when a nonempty selection has no valid name; fall back
to all columns when the provided list is empty. -/
def resolveCols (allCols cols : List String) : Option (List String) :=
  let valid := cols.filter (fun c => decide (c ∈ allCols))
  if valid.isEmpty && !cols.isEmpty then none
  else some (if valid.isEmpty then allCols else valid)

/-- The per-column loop of `translate_columns` (lines 99 to 295): for each
selected column still present, translate it and assign the result under
the name with the "T_" prefix. `simO` gives the similarity matrix the
vectorizer produces for a column (`none` models vectorization failure). -/
def translateLoopDF (target : String) (detectO transO : String → Option String)
    (simO : String → Option (Nat → Nat → ℚ)) :
    DataFrame → List String → DataFrame
  | df, [] => df
  | df, c :: cs =>
    if c ∈ colNames df then
      translateLoopDF target detectO transO simO
        (setCol df ("T_" ++ c)
          (((runColumn target detectO transO (simO c) (getCol df c)).1).map some))
        cs
    else
      translateLoopDF target detectO transO simO df cs

/-- Embedding of `translate_columns` with an explicit column selection:
`none` models the raised `ValueError` (empty dataset or no valid column). -/
def translateColumnsDF (target : String) (detectO transO : String → Option String)
    (simO : String → Option (Nat → Nat → ℚ))
    (df : DataFrame) (cols : List String) : Option DataFrame :=
  if colNames df = [] then none
  else
    match resolveCols (colNames df) cols with
    | none => none
    | some sel => some (translateLoopDF target detectO transO simO df sel)

/-- Assembly of the per-row output from a list of finished group results
(the loop over `as_completed`, lines 258 to 284): fold the groups in
completion order, writing each result back. -/
def assembleResults (col : List (Option String))
    (results : List (List (String × String))) (init : List String) : List String :=
  results.foldl (fun acc tr => applyWrites (groupWrites col tr) acc) init

/-- A concrete symmetric cosine-similarity matrix with unit diagonal in
which text 1 is similar to both text 0 and text 2, while texts 0 and 2
are dissimilar (realizable by unit vectors at pairwise angles of about
26 and 52 degrees). -/
def simCE : Nat → Nat → ℚ
  | 0, 0 => 1 | 0, 1 => 9/10 | 0, 2 => 1/2
  | 1, 0 => 9/10 | 1, 1 => 1 | 1, 2 => 9/10
  | 2, 0 => 1/2 | 2, 1 => 9/10 | 2, 2 => 1
  | _, _ => 0

/-- A language detector that always raises. -/
def oDetectFail : String → Option String := fun _ => none

/-- A language detector that always reports French. -/
def oDetectFr : String → Option String := fun _ => some "fr"

/-- A translation provider that succeeds, prefixing the input with "t". -/
def oTransSucc : String → Option String := fun s => some ("t" ++ s)

/-- A translation provider that always raises. -/
def oTransFail : String → Option String := fun _ => none

/-- The fresh per-column state: empty caches, zero provider calls. -/
def st0 : TransState := ⟨[], [], 0⟩

/-- The trimmed representative of a group: the stripped shortest member
(`str_value = representative.strip()`, lines 192 and 195). -/
def repText (g : List String) : String := pyStrip (minByLen g)

/-! ### Basic lemmas about the write-back primitives -/

theorem applyWrites_cons (w : Nat × String) (ws : List (Nat × String)) (l : List String) :
    applyWrites (w :: ws) l = applyWrites ws (l.set w.1 w.2) := rfl

theorem applyWrites_append (ws₁ ws₂ : List (Nat × String)) (l : List String) :
    applyWrites (ws₁ ++ ws₂) l = applyWrites ws₂ (applyWrites ws₁ l) := by
  simp [applyWrites, List.foldl_append]

theorem length_applyWrites (ws : List (Nat × String)) (l : List String) :
    (applyWrites ws l).length = l.length := by
  induction ws generalizing l with
  | nil => rfl
  | cons w ws ih => rw [applyWrites_cons, ih, List.length_set]

theorem getD_set_ne (l : List String) (i j : Nat) (v d : String) (h : i ≠ j) :
    (l.set i v).getD j d = l.getD j d := by
  induction l generalizing i j with
  | nil => rfl
  | cons a t ih =>
    cases i with
    | zero =>
      cases j with
      | zero => exact absurd rfl h
      | succ j => rfl
    | succ i =>
      cases j with
      | zero => rfl
      | succ j => simpa using ih i j (fun hc => h (by rw [hc]))

theorem getD_set_self (l : List String) (i : Nat) (v d : String) (h : i < l.length) :
    (l.set i v).getD i d = v := by
  induction l generalizing i with
  | nil => simp at h
  | cons a t ih =>
    cases i with
    | zero => rfl
    | succ i => simpa using ih i (by simp at h; omega)

theorem getD_replicate (n i : Nat) : (List.replicate n "").getD i "" = "" := by
  induction n generalizing i with
  | zero => rfl
  | succ n ih =>
    cases i with
    | zero => rfl
    | succ i => exact ih i

theorem getD_applyWrites_not_mem (ws : List (Nat × String)) (l : List String) (i : Nat)
    (h : ∀ w ∈ ws, w.1 ≠ i) : (applyWrites ws l).getD i "" = l.getD i "" := by
  induction ws generalizing l with
  | nil => rfl
  | cons w ws ih =>
    rw [applyWrites_cons, ih _ (fun x hx => h x (List.mem_cons_of_mem _ hx)),
      getD_set_ne _ _ _ _ _ (h w (List.mem_cons_self _ _))]

theorem getD_applyWrites_const (is : List Nat) (v : String) (l : List String) (i : Nat)
    (hmem : i ∈ is) (hlen : i < l.length) :
    (applyWrites (is.map (fun k => (k, v))) l).getD i "" = v := by
  induction is generalizing l with
  | nil => simp at hmem
  | cons k ks ih =>
    rw [List.map_cons, applyWrites_cons]
    by_cases hik : i ∈ ks
    · exact ih _ hik (by rw [List.length_set]; exact hlen)
    · have hk : k = i := by
        rcases List.mem_cons.mp hmem with h | h
        · exact h.symm
        · exact absurd h hik
      subst hk
      rw [getD_applyWrites_not_mem]
      · exact getD_set_self _ _ _ _ hlen
      · intro w hw
        obtain ⟨k', hk', rfl⟩ := List.mem_map.mp hw
        exact fun hc => hik (hc ▸ hk')

/-! ### Lemmas about row membership of texts -/

theorem mem_textToIndices (col : List (Option String)) (t : String) (i : Nat) :
    i ∈ textToIndices col t ↔
      i < col.length ∧ isEmptyCell (col.getD i none) = false ∧
        cellText (col.getD i none) = t := by
  simp [textToIndices, List.mem_filter, List.mem_range, Bool.and_eq_true,
    Bool.not_eq_true', beq_iff_eq, and_assoc]

theorem lt_length_of_not_emptyCell (col : List (Option String)) (i : Nat)
    (h : isEmptyCell (col.getD i none) = false) : i < col.length := by
  by_contra hc
  rw [List.getD_eq_default _ _ (Nat.le_of_not_lt hc)] at h
  simp [isEmptyCell] at h

theorem groupWrites_cons (col : List (Option String)) (p : String × String)
    (tr : List (String × String)) :
    groupWrites col (p :: tr) =
      (textToIndices col p.1).map (fun i => (i, p.2)) ++ groupWrites col tr := by
  simp [groupWrites]

theorem groupWrites_fst_mem (col : List (Option String)) (tr : List (String × String))
    (w : Nat × String) (hw : w ∈ groupWrites col tr) :
    ∃ t, w.1 ∈ textToIndices col t := by
  simp only [groupWrites, List.mem_flatten, List.mem_map] at hw
  obtain ⟨l, ⟨p, hp, rfl⟩, hwl⟩ := hw
  obtain ⟨k, hk, rfl⟩ := List.mem_map.mp hwl
  exact ⟨p.1, hk⟩

/-! ### Length preservation through a column run -/

theorem runGroupsColAux_length (target : String) (dO tO : String → Option String)
    (col : List (Option String)) (gs : List (List String)) :
    ∀ out st, ((runGroupsColAux target dO tO col gs out st).1).length = out.length := by
  induction gs with
  | nil => intro out st; rfl
  | cons g gs ih =>
    intro out st
    rw [runGroupsColAux, ih, length_applyWrites]

/-- Claim C6: for every input column the produced translated column has
exactly one output row per input row, including when every group fails. -/
theorem C6_output_length (target : String) (dO tO : String → Option String)
    (simO : Option (Nat → Nat → ℚ)) (col : List (Option String)) :
    ((runColumn target dO tO simO col).1).length = col.length := by
  unfold runColumn
  split
  · exact List.length_replicate ..
  · rw [runGroupsColAux_length, List.length_replicate]

/-! ### Empty rows are never written -/

theorem runGroupsColAux_getD_empty (target : String) (dO tO : String → Option String)
    (col : List (Option String)) (i : Nat)
    (hi : isEmptyCell (col.getD i none) = true) (gs : List (List String)) :
    ∀ out st, out.getD i "" = "" →
      ((runGroupsColAux target dO tO col gs out st).1).getD i "" = "" := by
  induction gs with
  | nil => intro out st h; exact h
  | cons g gs ih =>
    intro out st h
    rw [runGroupsColAux]
    apply ih
    rw [getD_applyWrites_not_mem, h]
    intro w hw hcontra
    obtain ⟨t, ht⟩ := groupWrites_fst_mem col _ w hw
    have hmem := (mem_textToIndices col t w.1).mp ht
    rw [hcontra] at hmem
    rw [hmem.2.1] at hi
    cases hi

theorem uniqueTexts_nil_of_all_empty (col : List (Option String))
    (h : ∀ c ∈ col, isEmptyCell c = true) : uniqueTexts col = [] := by
  have hf : col.filter (fun c => !isEmptyCell c) = [] := by
    rw [List.filter_eq_nil_iff]
    intro c hc
    simp [h c hc]
  simp [uniqueTexts, nonEmptyTexts, hf, firstSeen]

/-- Claim C7: a row whose input value is null or blank after trimming
yields the empty string, and a column whose rows are all empty yields a
column of empty strings with zero provider calls. -/
theorem C7_empty_rows (target : String) (dO tO : String → Option String)
    (simO : Option (Nat → Nat → ℚ)) (col : List (Option String)) (i : Nat)
    (hi : isEmptyCell (col.getD i none) = true) :
    ((runColumn target dO tO simO col).1).getD i "" = "" ∧
      ((∀ c ∈ col, isEmptyCell c = true) →
        (runColumn target dO tO simO col).1 = List.replicate col.length "" ∧
          (runColumn target dO tO simO col).2.calls = 0) := by
  constructor
  · unfold runColumn
    split
    · exact getD_replicate _ _
    · exact runGroupsColAux_getD_empty target dO tO col i hi _ _ _ (getD_replicate _ _)
  · intro hall
    unfold runColumn
    rw [if_pos (uniqueTexts_nil_of_all_empty col hall)]
    exact ⟨rfl, rfl⟩

/-- Witness for claim C7 at the column of the empty, the blank and the
null cell: the output is three empty strings and no provider call is made. -/
theorem C7_empty_rows_witness :
    ((runColumn "en" oDetectFail oTransSucc none [some "", some "   ", none]).1).getD 0 "" = "" ∧
      (runColumn "en" oDetectFail oTransSucc none [some "", some "   ", none]).1 =
        List.replicate 3 "" ∧
      (runColumn "en" oDetectFail oTransSucc none [some "", some "   ", none]).2.calls = 0 := by
  have h := C7_empty_rows "en" oDetectFail oTransSucc none
    [some "", some "   ", none] 0 (by decide)
  exact ⟨h.1, (h.2 (by decide)).1, (h.2 (by decide)).2⟩

/-! ### Exact duplicates receive identical output -/

theorem getD_applyGroupWrites_eq (col : List (Option String))
    (tr : List (String × String)) (out : List String) (i j : Nat)
    (hi : isEmptyCell (col.getD i none) = false)
    (hj : isEmptyCell (col.getD j none) = false)
    (heq : cellText (col.getD i none) = cellText (col.getD j none))
    (hlen : out.length = col.length)
    (hout : out.getD i "" = out.getD j "") :
    (applyWrites (groupWrites col tr) out).getD i "" =
      (applyWrites (groupWrites col tr) out).getD j "" := by
  induction tr generalizing out with
  | nil => exact hout
  | cons p tr ih =>
    rw [groupWrites_cons, applyWrites_append]
    apply ih
    · rw [length_applyWrites]; exact hlen
    · by_cases hT : cellText (col.getD i none) = p.1
      · have hilt : i < col.length := lt_length_of_not_emptyCell col i hi
        have hjlt : j < col.length := lt_length_of_not_emptyCell col j hj
        have hmi : i ∈ textToIndices col p.1 :=
          (mem_textToIndices col p.1 i).mpr ⟨hilt, hi, hT⟩
        have hmj : j ∈ textToIndices col p.1 :=
          (mem_textToIndices col p.1 j).mpr ⟨hjlt, hj, heq ▸ hT⟩
        rw [getD_applyWrites_const _ _ _ _ hmi (hlen ▸ hilt),
          getD_applyWrites_const _ _ _ _ hmj (hlen ▸ hjlt)]
      · have hnotk : ∀ w ∈ (textToIndices col p.1).map (fun k => (k, p.2)),
            w.1 ≠ i ∧ w.1 ≠ j := by
          intro w hw
          obtain ⟨k, hk, rfl⟩ := List.mem_map.mp hw
          have hk' := (mem_textToIndices col p.1 k).mp hk
          constructor
          · intro hc
            have hki : k = i := hc
            exact hT (hki ▸ hk'.2.2)
          · intro hc
            have hkj : k = j := hc
            exact hT (heq.trans (hkj ▸ hk'.2.2))
        rw [getD_applyWrites_not_mem _ _ _ (fun w hw => (hnotk w hw).1),
          getD_applyWrites_not_mem _ _ _ (fun w hw => (hnotk w hw).2)]
        exact hout

theorem runGroupsColAux_getD_eq (target : String) (dO tO : String → Option String)
    (col : List (Option String)) (i j : Nat)
    (hi : isEmptyCell (col.getD i none) = false)
    (hj : isEmptyCell (col.getD j none) = false)
    (heq : cellText (col.getD i none) = cellText (col.getD j none))
    (gs : List (List String)) :
    ∀ out st, out.length = col.length → out.getD i "" = out.getD j "" →
      ((runGroupsColAux target dO tO col gs out st).1).getD i "" =
        ((runGroupsColAux target dO tO col gs out st).1).getD j "" := by
  induction gs with
  | nil => intro out st _ h; exact h
  | cons g gs ih =>
    intro out st hlen h
    rw [runGroupsColAux]
    exact ih _ _ (by rw [length_applyWrites]; exact hlen)
      (getD_applyGroupWrites_eq col _ out i j hi hj heq hlen h)

/-- Claim C8: two rows of the same column whose values are non-empty and
equal after trimming receive identical translated output. -/
theorem C8_duplicate_rows (target : String) (dO tO : String → Option String)
    (simO : Option (Nat → Nat → ℚ)) (col : List (Option String)) (i j : Nat)
    (hi : isEmptyCell (col.getD i none) = false)
    (hj : isEmptyCell (col.getD j none) = false)
    (heq : cellText (col.getD i none) = cellText (col.getD j none)) :
    ((runColumn target dO tO simO col).1).getD i "" =
      ((runColumn target dO tO simO col).1).getD j "" := by
  unfold runColumn
  split
  · rw [getD_replicate, getD_replicate]
  · exact runGroupsColAux_getD_eq target dO tO col i j hi hj heq _ _ _
      (List.length_replicate _ _) (by rw [getD_replicate, getD_replicate])

/-- Witness for claim C8 at the column whose rows 0 and 2 both trim to
the text x: their outputs coincide. -/
theorem C8_duplicate_rows_witness :
    ((runColumn "en" oDetectFail oTransSucc none
        [some " x ", none, some "x"]).1).getD 0 "" =
      ((runColumn "en" oDetectFail oTransSucc none
        [some " x ", none, some "x"]).1).getD 2 "" :=
  C8_duplicate_rows "en" oDetectFail oTransSucc none
    [some " x ", none, some "x"] 0 2 (by decide) (by decide) (by decide)

/-! ### The grouper: every unique text is covered, but groups can overlap -/

theorem mem_of_mem_similarTexts (sim : Nat → Nat → ℚ) (th : ℚ) (texts : List String)
    (i : Nat) (t : String) (ht : t ∈ similarTexts sim th texts i) : t ∈ texts := by
  simp only [similarTexts, List.mem_map, List.mem_filter, List.mem_range] at ht
  obtain ⟨j, ⟨hj, _⟩, rfl⟩ := ht
  rw [List.getD_eq_getElem _ _ hj]
  exact List.getElem_mem _

theorem self_mem_similarTexts (sim : Nat → Nat → ℚ) (th : ℚ) (texts : List String)
    (i : Nat) (hi : i < texts.length) (hsim : th ≤ sim i i) :
    texts.getD i "" ∈ similarTexts sim th texts i := by
  simp only [similarTexts, List.mem_map, List.mem_filter, List.mem_range]
  exact ⟨i, ⟨hi, decide_eq_true hsim⟩, rfl⟩

theorem groupLoop_covers (sim : Nat → Nat → ℚ) (th : ℚ) (texts : List String) :
    ∀ (is : List Nat) (used : List String),
      (∀ i ∈ is, i < texts.length ∧ th ≤ sim i i) →
      ∀ i ∈ is, texts.getD i "" ∈ used ∨
        texts.getD i "" ∈ (groupLoop sim th texts is used).flatten := by
  intro is
  induction is with
  | nil => intro used _ i hi; cases hi
  | cons a rest ih =>
    intro used hall i hi
    rw [groupLoop]
    by_cases hmem : texts.getD a "" ∈ used
    · rw [if_pos hmem]
      rcases List.mem_cons.mp hi with rfl | hi'
      · exact Or.inl hmem
      · exact ih used (fun k hk => hall k (List.mem_cons_of_mem _ hk)) i hi'
    · rw [if_neg hmem]
      rcases List.mem_cons.mp hi with rfl | hi'
      · refine Or.inr ?_
        rw [List.flatten_cons]
        exact List.mem_append_left _
          (self_mem_similarTexts sim th texts i (hall i hi).1 (hall i hi).2)
      · rcases ih (used ++ similarTexts sim th texts a)
          (fun k hk => hall k (List.mem_cons_of_mem _ hk)) i hi' with h | h
        · rcases List.mem_append.mp h with h' | h'
          · exact Or.inl h'
          · exact Or.inr (by rw [List.flatten_cons]; exact List.mem_append_left _ h')
        · exact Or.inr (by rw [List.flatten_cons]; exact List.mem_append_right _ h)

theorem groupLoop_subset (sim : Nat → Nat → ℚ) (th : ℚ) (texts : List String) :
    ∀ (is : List Nat) (used : List String) (g : List String),
      g ∈ groupLoop sim th texts is used → ∀ t ∈ g, t ∈ texts := by
  intro is
  induction is with
  | nil => intro used g hg; cases hg
  | cons a rest ih =>
    intro used g hg t ht
    rw [groupLoop] at hg
    by_cases hmem : texts.getD a "" ∈ used
    · rw [if_pos hmem] at hg
      exact ih used g hg t ht
    · rw [if_neg hmem] at hg
      rcases List.mem_cons.mp hg with rfl | hg'
      · exact mem_of_mem_similarTexts sim th texts a t ht
      · exact ih _ g hg' t ht

theorem simCE_similar_zero :
    similarTexts simCE (85/100) ["aa", "bb", "cc"] 0 = ["aa", "bb"] := by
  have h0 : decide ((85 : ℚ)/100 ≤ simCE 0 0) = true := by norm_num [simCE]
  have h1 : decide ((85 : ℚ)/100 ≤ simCE 0 1) = true := by norm_num [simCE]
  have h2 : decide ((85 : ℚ)/100 ≤ simCE 0 2) = false := by
    rw [decide_eq_false_iff_not]
    norm_num [simCE]
  have hr : List.range (["aa", "bb", "cc"] : List String).length = [0, 1, 2] := rfl
  simp [similarTexts, hr, List.filter, h0, h1, h2]

theorem simCE_similar_two :
    similarTexts simCE (85/100) ["aa", "bb", "cc"] 2 = ["bb", "cc"] := by
  have h0 : decide ((85 : ℚ)/100 ≤ simCE 2 0) = false := by
    rw [decide_eq_false_iff_not]
    norm_num [simCE]
  have h1 : decide ((85 : ℚ)/100 ≤ simCE 2 1) = true := by norm_num [simCE]
  have h2 : decide ((85 : ℚ)/100 ≤ simCE 2 2) = true := by norm_num [simCE]
  have hr : List.range (["aa", "bb", "cc"] : List String).length = [0, 1, 2] := rfl
  simp [similarTexts, hr, List.filter, h0, h1, h2]

theorem simCE_groups :
    groupTexts simCE (85/100) ["aa", "bb", "cc"] = [["aa", "bb"], ["bb", "cc"]] := by
  have hr : List.range (["aa", "bb", "cc"] : List String).length = [0, 1, 2] := rfl
  rw [groupTexts, hr]
  rw [groupLoop]
  rw [if_neg (by decide)]
  rw [simCE_similar_zero]
  rw [groupLoop]
  rw [if_pos (by decide)]
  rw [groupLoop]
  rw [if_neg (by decide)]
  rw [simCE_similar_two]
  rw [groupLoop]

/-- Claim C1 counterexample: for the column with unique values
aa, bb, cc and a realizable symmetric unit-diagonal similarity matrix
(bb similar to both aa and cc, aa dissimilar to cc), the grouper emits
the overlapping groups so the pairwise-empty-intersection half of the
partition property fails: bb belongs to two distinct groups. -/
theorem C1_counterexample :
    ¬ List.Pairwise (fun g₁ g₂ => ∀ t, t ∈ g₁ → t ∉ g₂)
      (groupTexts simCE (85/100) (uniqueTexts [some "aa", some "bb", some "cc"])) := by
  have hu : uniqueTexts [some "aa", some "bb", some "cc"] = ["aa", "bb", "cc"] := by decide
  rw [hu, simCE_groups]
  intro h
  exact (List.pairwise_cons.mp h).1 ["bb", "cc"] (List.mem_cons_self _ _) "bb"
    (by decide) (by decide)

/-- Claim C1 (amended): the union of the groups produced by the grouper
for a column equals the set of the column's unique non-empty trimmed
values, provided every unique text has self-similarity at least the
threshold (as cosine similarity of nonzero vectors does); distinct
groups, however, need not be disjoint: a text similar to two different
seeds appears in both of their groups. -/
theorem C1_partition_amended (sim : Nat → Nat → ℚ) (col : List (Option String))
    (hdiag : ∀ i < (uniqueTexts col).length, (85 : ℚ)/100 ≤ sim i i) (t : String) :
    (∃ g ∈ groupTexts sim (85/100) (uniqueTexts col), t ∈ g) ↔ t ∈ uniqueTexts col := by
  constructor
  · intro h
    obtain ⟨g, hg, ht⟩ := h
    exact groupLoop_subset sim (85/100) (uniqueTexts col) _ _ g hg t ht
  · intro h
    obtain ⟨i, hi, rfl⟩ := List.getElem_of_mem h
    have hcov := groupLoop_covers sim (85/100) (uniqueTexts col)
      (List.range (uniqueTexts col).length) []
      (fun k hk => ⟨List.mem_range.mp hk, hdiag k (List.mem_range.mp hk)⟩)
      i (List.mem_range.mpr hi)
    rcases hcov with hbad | hcov
    · cases hbad
    · rw [List.getD_eq_getElem _ _ hi] at hcov
      obtain ⟨g, hg, ht⟩ := List.mem_flatten.mp hcov
      exact ⟨g, hg, ht⟩

/-- Witness for the amended claim C1 at the concrete column and matrix:
bb is covered by some group. -/
theorem C1_partition_amended_witness :
    ∃ g ∈ groupTexts simCE (85/100) (uniqueTexts [some "aa", some "bb", some "cc"]),
      "bb" ∈ g := by
  apply (C1_partition_amended simCE [some "aa", some "bb", some "cc"] ?_ "bb").mpr
  · decide
  · intro i hi
    have hu : (uniqueTexts [some "aa", some "bb", some "cc"]).length = 3 := by decide
    rw [hu] at hi
    interval_cases i <;> norm_num [simCE]

/-! ### Assembly order: commutation of disjoint write batches -/

theorem set_applyWrites_comm (ws : List (Nat × String)) (l : List String) (i : Nat)
    (v : String) (h : ∀ w ∈ ws, w.1 ≠ i) :
    applyWrites ws (l.set i v) = (applyWrites ws l).set i v := by
  induction ws generalizing l with
  | nil => rfl
  | cons w ws ih =>
    rw [applyWrites_cons, applyWrites_cons,
      List.set_comm _ _ _ (fun hc => h w (List.mem_cons_self _ _) hc.symm),
      ih _ (fun x hx => h x (List.mem_cons_of_mem _ hx))]

theorem applyWrites_comm (ws₁ ws₂ : List (Nat × String)) (l : List String)
    (h : ∀ w ∈ ws₁, ∀ w' ∈ ws₂, w.1 ≠ w'.1) :
    applyWrites ws₁ (applyWrites ws₂ l) = applyWrites ws₂ (applyWrites ws₁ l) := by
  induction ws₁ generalizing l with
  | nil => rfl
  | cons w ws₁ ih =>
    rw [applyWrites_cons, applyWrites_cons,
      ← set_applyWrites_comm ws₂ l w.1 w.2
        (fun w' hw' => (h w (List.mem_cons_self _ _) w' hw').symm),
      ih _ (fun x hx w' hw' => h x (List.mem_cons_of_mem _ hx) w' hw')]

theorem assembleResults_cons (col : List (Option String))
    (tr : List (String × String)) (rs : List (List (String × String)))
    (init : List String) :
    assembleResults col (tr :: rs) init =
      assembleResults col rs (applyWrites (groupWrites col tr) init) := rfl

theorem assembleResults_perm_aux (col : List (Option String))
    (l₁ l₂ : List (List (String × String))) (hp : l₁.Perm l₂) :
    ∀ init : List String,
      l₁.Pairwise (fun tr₁ tr₂ => ∀ i, i ∈ (groupWrites col tr₁).map Prod.fst →
        i ∉ (groupWrites col tr₂).map Prod.fst) →
      assembleResults col l₁ init = assembleResults col l₂ init := by
  induction hp with
  | nil => intro init _; rfl
  | cons x hp ih =>
    intro init hd
    rw [assembleResults_cons, assembleResults_cons]
    exact ih _ (List.pairwise_cons.mp hd).2
  | swap x y l =>
    intro init hd
    rw [assembleResults_cons, assembleResults_cons,
      assembleResults_cons, assembleResults_cons]
    have hyx := (List.pairwise_cons.mp hd).1 x (List.mem_cons_self _ _)
    have hcomm : applyWrites (groupWrites col x) (applyWrites (groupWrites col y) init) =
        applyWrites (groupWrites col y) (applyWrites (groupWrites col x) init) := by
      apply applyWrites_comm
      intro w hw w' hw'
      intro hc
      exact hyx w'.1 (List.mem_map_of_mem Prod.fst hw') (hc ▸ List.mem_map_of_mem Prod.fst hw)
    rw [hcomm]
  | trans h₁ h₂ ih₁ ih₂ =>
    intro init hd
    rw [ih₁ init hd]
    refine ih₂ init ?_
    refine (List.Perm.pairwise_iff ?_ h₁).mp hd
    intro a b hab i hi hin
    exact hab i hin hi

/-- Claim C4 counterexample: with overlapping groups (as the grouper can
produce, see the claim C1 counterexample) the assembled column depends on
the completion order: the two orders of the fixed results for groups
a, b and b, c give different outputs at the row of the shared text b. -/
theorem C4_counterexample :
    ([[("a", "x"), ("b", "x")], [("b", "y"), ("c", "y")]] :
        List (List (String × String))).Perm
      [[("b", "y"), ("c", "y")], [("a", "x"), ("b", "x")]] ∧
    assembleResults [some "a", some "b", some "c"]
        [[("a", "x"), ("b", "x")], [("b", "y"), ("c", "y")]]
        (List.replicate 3 "") ≠
      assembleResults [some "a", some "b", some "c"]
        [[("b", "y"), ("c", "y")], [("a", "x"), ("b", "x")]]
        (List.replicate 3 "") := by
  constructor
  · exact List.Perm.swap _ _ _
  · decide

/-- Claim C4 (amended): when the row-index write sets of the per-group
results are pairwise disjoint (as they are when the groups partition the
unique texts), the assembled column is the same for every completion
order of the group tasks. -/
theorem C4_order_amended (col : List (Option String)) (init : List String)
    (l₁ l₂ : List (List (String × String))) (hp : l₁.Perm l₂)
    (hd : l₁.Pairwise (fun tr₁ tr₂ => ∀ i, i ∈ (groupWrites col tr₁).map Prod.fst →
      i ∉ (groupWrites col tr₂).map Prod.fst)) :
    assembleResults col l₁ init = assembleResults col l₂ init :=
  assembleResults_perm_aux col l₁ l₂ hp init hd

/-- Witness for the amended claim C4: two disjoint group results applied
in either order give the same column. -/
theorem C4_order_amended_witness :
    assembleResults [some "a", none, some "c"]
        [[("a", "x")], [("c", "y")]] (List.replicate 3 "") =
      assembleResults [some "a", none, some "c"]
        [[("c", "y")], [("a", "x")]] (List.replicate 3 "") := by
  apply C4_order_amended [some "a", none, some "c"] (List.replicate 3 "")
    [[("a", "x")], [("c", "y")]] [[("c", "y")], [("a", "x")]]
    (List.Perm.swap _ _ _)
  refine List.pairwise_cons.mpr ⟨?_, List.pairwise_singleton _ _⟩
  intro tr htr i hi hc
  rw [List.mem_singleton.mp htr] at hc
  have e1 : (groupWrites [some "a", none, some "c"] [(("a" : String), ("x" : String))]).map
      Prod.fst = [0] := by decide
  have e2 : (groupWrites [some "a", none, some "c"] [(("c" : String), ("y" : String))]).map
      Prod.fst = [2] := by decide
  rw [e1] at hi
  rw [e2] at hc
  simp at hi hc
  omega

/-! ### Path equations for translate_group -/

theorem translateGroup_eq_cached (target : String) (dO tO : String → Option String)
    (st : TransState) (g : List String) (c : String)
    (h : alookup (repText g) st.tCache = some c) :
    translateGroup target dO tO st g = (g.map (fun t => (t, c)), "cached", st) := by
  simp only [translateGroup, repText] at h ⊢
  rw [h]

theorem translateGroup_eq_skipped (target : String) (dO tO : String → Option String)
    (st : TransState) (g : List String)
    (h : alookup (repText g) st.tCache = none)
    (hd : (detectPhase dO st (repText g)).1 = some target) :
    translateGroup target dO tO st g =
      (g.map (fun t => (t, repText g)), "skipped",
        { (detectPhase dO st (repText g)).2 with
          tCache := (repText g, repText g) ::
            (detectPhase dO st (repText g)).2.tCache }) := by
  simp only [translateGroup, repText] at h hd ⊢
  rw [h, if_pos hd]

theorem translateGroup_eq_translated (target : String) (dO tO : String → Option String)
    (st : TransState) (g : List String) (tr : String)
    (h : alookup (repText g) st.tCache = none)
    (hd : (detectPhase dO st (repText g)).1 ≠ some target)
    (ht : tO (repText g) = some tr) :
    translateGroup target dO tO st g =
      (g.map (fun t => (t, tr)), "translated",
        { (detectPhase dO st (repText g)).2 with
          tCache := g.foldl (fun c t => (t, tr) :: c)
            (detectPhase dO st (repText g)).2.tCache,
          calls := (detectPhase dO st (repText g)).2.calls + 1 }) := by
  simp only [translateGroup, repText] at h hd ht ⊢
  rw [h, if_neg hd, ht]

theorem translateGroup_eq_error (target : String) (dO tO : String → Option String)
    (st : TransState) (g : List String)
    (h : alookup (repText g) st.tCache = none)
    (hd : (detectPhase dO st (repText g)).1 ≠ some target)
    (ht : tO (repText g) = none) :
    translateGroup target dO tO st g =
      (g.map (fun t => (t, "NA")), "error",
        { (detectPhase dO st (repText g)).2 with
          calls := (detectPhase dO st (repText g)).2.calls + 1 }) := by
  simp only [translateGroup, repText] at h hd ht ⊢
  rw [h, if_neg hd, ht]

/-! ### The representative and the cache after a successful call -/

theorem foldl_min_mem (ts : List String) :
    ∀ t, ts.foldl (fun acc x => if x.length < acc.length then x else acc) t ∈ t :: ts := by
  induction ts with
  | nil => intro t; exact List.mem_cons_self _ _
  | cons x ts ih =>
    intro t
    rw [List.foldl_cons]
    by_cases hx : x.length < t.length
    · simp only [if_pos hx]
      rcases List.mem_cons.mp (ih x) with h | h
      · rw [h]; exact List.mem_cons_of_mem _ (List.mem_cons_self _ _)
      · exact List.mem_cons_of_mem _ (List.mem_cons_of_mem _ h)
    · simp only [if_neg hx]
      rcases List.mem_cons.mp (ih t) with h | h
      · rw [h]; exact List.mem_cons_self _ _
      · exact List.mem_cons_of_mem _ (List.mem_cons_of_mem _ h)

theorem minByLen_mem (g : List String) (h : g ≠ []) : minByLen g ∈ g := by
  match g, h with
  | t :: ts, _ =>
    rw [minByLen]
    exact foldl_min_mem ts t

theorem alookup_foldl_prepend (tr : String) (g : List String) :
    ∀ (c₀ : List (String × String)) (x : String),
      alookup x (g.foldl (fun c t => (t, tr) :: c) c₀) =
        if x ∈ g then some tr else alookup x c₀ := by
  induction g with
  | nil => intro c₀ x; simp
  | cons t ts ih =>
    intro c₀ x
    rw [List.foldl_cons, ih]
    by_cases hx : x ∈ ts
    · rw [if_pos hx, if_pos (List.mem_cons_of_mem _ hx)]
    · rw [if_neg hx]
      by_cases hxt : x = t
      · subst hxt
        rw [if_pos (List.mem_cons_self _ _)]
        simp [alookup]
      · rw [if_neg (fun hc => (List.mem_cons.mp hc).elim hxt hx)]
        simp only [alookup]
        rw [if_neg (fun hc => hxt hc.symm)]

/-- After a non-error invocation, the representative key is present in the
translation cache (for a nonempty group of trimmed members). -/
theorem repText_cached_after (target : String) (dO tO : String → Option String)
    (st : TransState) (g : List String) (hne : g ≠ [])
    (htrim : ∀ t ∈ g, pyStrip t = t)
    (hs : (translateGroup target dO tO st g).2.1 ≠ "error") :
    ∃ v, alookup (repText g) (translateGroup target dO tO st g).2.2.tCache = some v := by
  rcases hcase : alookup (repText g) st.tCache with _ | c
  · rcases hdcase : (detectPhase dO st (repText g)).1 with _ | d
    · rcases htcase : tO (repText g) with _ | tr
      · have herr := translateGroup_eq_error target dO tO st g hcase
          (by rw [hdcase]; simp) htcase
        rw [herr] at hs
        exact absurd rfl hs
      · rw [translateGroup_eq_translated target dO tO st g tr hcase
          (by rw [hdcase]; simp) htcase]
        refine ⟨tr, ?_⟩
        rw [alookup_foldl_prepend]
        rw [if_pos ?_]
        have : minByLen g ∈ g := minByLen_mem g hne
        rw [repText, htrim _ this]
        exact this
    · by_cases hdt : d = target
      · have hd' : (detectPhase dO st (repText g)).1 = some target := by
          rw [hdcase, hdt]
        rw [translateGroup_eq_skipped target dO tO st g hcase hd']
        exact ⟨repText g, by simp [alookup]⟩
      · rcases htcase : tO (repText g) with _ | tr
        · have herr := translateGroup_eq_error target dO tO st g hcase
            (by rw [hdcase]; simp [hdt]) htcase
          rw [herr] at hs
          exact absurd rfl hs
        · rw [translateGroup_eq_translated target dO tO st g tr hcase
            (by rw [hdcase]; simp [hdt]) htcase]
          refine ⟨tr, ?_⟩
          rw [alookup_foldl_prepend]
          rw [if_pos ?_]
          have : minByLen g ∈ g := minByLen_mem g hne
          rw [repText, htrim _ this]
          exact this
  · rw [translateGroup_eq_cached target dO tO st g c hcase]
    exact ⟨c, hcase⟩

/-- Claim C2 (amended): within one run, if the first of two invocations
of translate_group with the same representative text returns a non-error
status, the second invocation finds the representative in the translation
cache and returns status cached with the state (and hence the provider
call count) unchanged, so at most one provider call is made for the
representative. When the first invocation errors, nothing is cached and
the provider is called again (see the counterexample). -/
theorem C2_cache_amended (target : String) (dO tO : String → Option String)
    (st : TransState) (g₁ g₂ : List String) (hne : g₁ ≠ [])
    (htrim : ∀ t ∈ g₁, pyStrip t = t)
    (hrep : minByLen g₂ = minByLen g₁)
    (hs : (translateGroup target dO tO st g₁).2.1 ≠ "error") :
    (translateGroup target dO tO (translateGroup target dO tO st g₁).2.2 g₂).2.1 =
        "cached" ∧
      (translateGroup target dO tO (translateGroup target dO tO st g₁).2.2 g₂).2.2 =
        (translateGroup target dO tO st g₁).2.2 := by
  obtain ⟨v, hv⟩ := repText_cached_after target dO tO st g₁ hne htrim hs
  have hv₂ : alookup (repText g₂) (translateGroup target dO tO st g₁).2.2.tCache =
      some v := by rw [repText, hrep, ← repText]; exact hv
  rw [translateGroup_eq_cached target dO tO _ g₂ v hv₂]
  exact ⟨rfl, rfl⟩

/-- Claim C2 counterexample: with a provider that raises, two invocations
of translate_group with the same representative make two provider calls,
and the second returns status error rather than cached, because a failed
first invocation populates no cache entry. -/
theorem C2_counterexample :
    (translateGroup "en" oDetectFail oTransFail
        (translateGroup "en" oDetectFail oTransFail st0 ["aaaa"]).2.2 ["aaaa"]).2.2.calls
        = 2 ∧
      (translateGroup "en" oDetectFail oTransFail
        (translateGroup "en" oDetectFail oTransFail st0 ["aaaa"]).2.2 ["aaaa"]).2.1
        = "error" := by
  decide

/-- Witness for the amended claim C2: after a successful first
translation of the group aaaa, a second invocation with the same
representative is a cache hit with an unchanged state. -/
theorem C2_cache_amended_witness :
    (translateGroup "en" oDetectFail oTransSucc
        (translateGroup "en" oDetectFail oTransSucc st0 ["aaaa"]).2.2 ["aaaa"]).2.1
        = "cached" ∧
      (translateGroup "en" oDetectFail oTransSucc
        (translateGroup "en" oDetectFail oTransSucc st0 ["aaaa"]).2.2 ["aaaa"]).2.2
        = (translateGroup "en" oDetectFail oTransSucc st0 ["aaaa"]).2.2 :=
  C2_cache_amended "en" oDetectFail oTransSucc st0 ["aaaa"] ["aaaa"]
    (by decide) (by decide) rfl (by decide)

/-- Claim C3 counterexample: an exception in the language-detection call
alone does not give status error: it is caught internally, translation
proceeds, and the member receives the provider translation, not NA. -/
theorem C3_counterexample :
    (translateGroup "en" oDetectFail oTransSucc st0 ["abcd"]).2.1 = "translated" ∧
      (translateGroup "en" oDetectFail oTransSucc st0 ["abcd"]).1 =
        [("abcd", "tabcd")] := by
  decide

/-- Claim C3 (amended): if the translation-provider call raises during
translate_group (representative not cached and the target-language skip
not taken), every member of the group is assigned the sentinel NA and
the returned status is error; detection exceptions are caught internally
and never produce the error status by themselves. The failure does not
abort the column: a run over any group list containing the failing group
still returns one output row per input row. -/
theorem C3_provider_error_amended (target : String) (dO tO : String → Option String)
    (st : TransState) (g : List String)
    (hc : alookup (repText g) st.tCache = none)
    (hd : (detectPhase dO st (repText g)).1 ≠ some target)
    (ht : tO (repText g) = none) :
    (translateGroup target dO tO st g).1 = g.map (fun t => (t, "NA")) ∧
      (translateGroup target dO tO st g).2.1 = "error" ∧
      ∀ (col : List (Option String)) (groups : List (List String)), g ∈ groups →
        ∀ (out : List String) (st₀ : TransState),
          ((runGroupsColAux target dO tO col groups out st₀).1).length = out.length := by
  rw [translateGroup_eq_error target dO tO st g hc hd ht]
  exact ⟨rfl, rfl, fun col groups _ out st₀ => runGroupsColAux_length target dO tO col groups out st₀⟩

/-- Witness for the amended claim C3: a failing provider on the group of
erreur1 and erreur2 yields NA for both members and status error, and the
run over that single group still has one output row per input row. -/
theorem C3_provider_error_amended_witness :
    (translateGroup "en" oDetectFail oTransFail st0 ["erreur1", "erreur2"]).1 =
        [("erreur1", "NA"), ("erreur2", "NA")] ∧
      (translateGroup "en" oDetectFail oTransFail st0 ["erreur1", "erreur2"]).2.1 =
        "error" ∧
      ((runGroupsColAux "en" oDetectFail oTransFail [some "erreur1", some "erreur2"]
          [["erreur1", "erreur2"]] (List.replicate 2 "") st0).1).length = 2 := by
  have h := C3_provider_error_amended "en" oDetectFail oTransFail st0
    ["erreur1", "erreur2"] (by decide) (by decide) (by decide)
  refine ⟨h.1, h.2.1, ?_⟩
  have h3 := h.2.2 [some "erreur1", some "erreur2"] [["erreur1", "erreur2"]]
    (List.mem_cons_self _ _) (List.replicate 2 "") st0
  rw [h3]
  decide

/-- Claim C9: a failing language-detection call is non-fatal per text:
the language is treated as unknown (nothing is cached in the detection
cache), the target-language skip is not applied, and the group is
translated normally with status translated, not error. -/
theorem C9_detection_nonfatal (target : String) (dO tO : String → Option String)
    (st : TransState) (g : List String) (tr : String)
    (hc : alookup (repText g) st.tCache = none)
    (hlen : 3 < (repText g).length)
    (hl : alookup (repText g) st.lCache = none)
    (hdet : dO (repText g) = none)
    (htr : tO (repText g) = some tr) :
    (translateGroup target dO tO st g).2.1 = "translated" ∧
      (translateGroup target dO tO st g).1 = g.map (fun t => (t, tr)) ∧
      (translateGroup target dO tO st g).2.2.lCache = st.lCache := by
  have hph : detectPhase dO st (repText g) = (none, st) := by
    rw [detectPhase, if_pos hlen]
    simp only [detectStep, hl, hdet]
  have hd : (detectPhase dO st (repText g)).1 ≠ some target := by
    rw [hph]; simp
  rw [translateGroup_eq_translated target dO tO st g tr hc hd htr]
  refine ⟨rfl, rfl, ?_⟩
  rw [hph]

/-- Witness for claim C9: detection raises on abcd, the provider
succeeds, the status is translated and the detection cache stays empty. -/
theorem C9_detection_nonfatal_witness :
    (translateGroup "en" oDetectFail oTransSucc st0 ["abcd", "abcde"]).2.1 =
        "translated" ∧
      (translateGroup "en" oDetectFail oTransSucc st0 ["abcd", "abcde"]).1 =
        [("abcd", "tabcd"), ("abcde", "tabcd")] ∧
      (translateGroup "en" oDetectFail oTransSucc st0 ["abcd", "abcde"]).2.2.lCache =
        st0.lCache :=
  C9_detection_nonfatal "en" oDetectFail oTransSucc st0 ["abcd", "abcde"] "tabcd"
    (by decide) (by decide) (by decide) (by decide) (by decide)

/-! ### Cache evolution across a run -/

theorem alookup_some_key_mem (k : String) (c : List (String × String)) (v : String)
    (h : alookup k c = some v) : ∃ kv ∈ c, kv.1 = k := by
  induction c with
  | nil => cases h
  | cons a t ih =>
    obtain ⟨a1, a2⟩ := a
    rw [alookup] at h
    by_cases hk : a1 = k
    · exact ⟨(a1, a2), List.mem_cons_self _ _, hk⟩
    · rw [if_neg hk] at h
      obtain ⟨kv, hkv, hkk⟩ := ih h
      exact ⟨kv, List.mem_cons_of_mem _ hkv, hkk⟩

theorem alookup_append_not_mem (k : String) (pre c : List (String × String))
    (h : ∀ kv ∈ pre, kv.1 ≠ k) : alookup k (pre ++ c) = alookup k c := by
  induction pre with
  | nil => rfl
  | cons a t ih =>
    rw [List.cons_append, alookup,
      if_neg (h a (List.mem_cons_self _ _)),
      ih (fun kv hkv => h kv (List.mem_cons_of_mem _ hkv))]

theorem detectStep_tCache (dO : String → Option String) (st : TransState) (s : String) :
    (detectStep dO st s).2.tCache = st.tCache := by
  unfold detectStep
  split
  · rfl
  · split
    · rfl
    · rfl

theorem detectPhase_tCache (dO : String → Option String) (st : TransState) (s : String) :
    (detectPhase dO st s).2.tCache = st.tCache := by
  unfold detectPhase
  split
  · exact detectStep_tCache dO st s
  · rfl

theorem foldl_prepend_decomp (tr : String) (g : List String) :
    ∀ c₀ : List (String × String),
      ∃ pre, g.foldl (fun c t => (t, tr) :: c) c₀ = pre ++ c₀ ∧
        ∀ kv ∈ pre, kv.1 ∈ g := by
  induction g with
  | nil => intro c₀; exact ⟨[], rfl, fun kv hkv => absurd hkv (List.not_mem_nil _)⟩
  | cons t ts ih =>
    intro c₀
    obtain ⟨pre, hpre, hkeys⟩ := ih ((t, tr) :: c₀)
    refine ⟨pre ++ [(t, tr)], ?_, ?_⟩
    · rw [List.foldl_cons, hpre, List.append_assoc]
      rfl
    · intro kv hkv
      rcases List.mem_append.mp hkv with hin | hin
      · exact List.mem_cons_of_mem _ (hkeys kv hin)
      · rw [List.mem_singleton.mp hin]
        exact List.mem_cons_self _ _

theorem translateGroup_tCache_decomp (target : String) (dO tO : String → Option String)
    (st : TransState) (g : List String) (htrim : ∀ t ∈ g, pyStrip t = t) :
    ∃ pre, (translateGroup target dO tO st g).2.2.tCache = pre ++ st.tCache ∧
      ∀ kv ∈ pre, kv.1 ∈ g := by
  have hrep_mem : g ≠ [] → repText g ∈ g := by
    intro hne
    rw [repText, htrim _ (minByLen_mem g hne)]
    exact minByLen_mem g hne
  rcases hcase : alookup (repText g) st.tCache with _ | c
  · rcases hdcase : (detectPhase dO st (repText g)).1 with _ | d
    · rcases htcase : tO (repText g) with _ | tr
      · rw [translateGroup_eq_error target dO tO st g hcase (by rw [hdcase]; simp) htcase]
        exact ⟨[], by rw [detectPhase_tCache, List.nil_append], fun kv hkv => absurd hkv (List.not_mem_nil _)⟩
      · rw [translateGroup_eq_translated target dO tO st g tr hcase
          (by rw [hdcase]; simp) htcase]
        obtain ⟨pre, hpre, hkeys⟩ := foldl_prepend_decomp tr g
          (detectPhase dO st (repText g)).2.tCache
        exact ⟨pre, by rw [hpre, detectPhase_tCache], hkeys⟩
    · by_cases hdt : d = target
      · have hd' : (detectPhase dO st (repText g)).1 = some target := by rw [hdcase, hdt]
        rw [translateGroup_eq_skipped target dO tO st g hcase hd']
        have hne : g ≠ [] := by
          intro hnil
          have : ¬ 3 < (repText g).length := by rw [hnil]; decide
          rw [detectPhase, if_neg this] at hd'
          cases hd'
        refine ⟨[(repText g, repText g)], ?_, ?_⟩
        · rw [List.singleton_append, detectPhase_tCache]
        · intro kv hkv
          rw [List.mem_singleton.mp hkv]
          exact hrep_mem hne
      · rcases htcase : tO (repText g) with _ | tr
        · rw [translateGroup_eq_error target dO tO st g hcase
            (by rw [hdcase]; simp [hdt]) htcase]
          exact ⟨[], by rw [detectPhase_tCache, List.nil_append], fun kv hkv => absurd hkv (List.not_mem_nil _)⟩
        · rw [translateGroup_eq_translated target dO tO st g tr hcase
            (by rw [hdcase]; simp [hdt]) htcase]
          obtain ⟨pre, hpre, hkeys⟩ := foldl_prepend_decomp tr g
            (detectPhase dO st (repText g)).2.tCache
          exact ⟨pre, by rw [hpre, detectPhase_tCache], hkeys⟩
  · rw [translateGroup_eq_cached target dO tO st g c hcase]
    exact ⟨[], rfl, fun kv hkv => absurd hkv (List.not_mem_nil _)⟩

theorem runGroups_append (target : String) (dO tO : String → Option String)
    (l₁ l₂ : List (List String)) :
    ∀ st, runGroups target dO tO st (l₁ ++ l₂) =
      runGroups target dO tO (runGroups target dO tO st l₁) l₂ := by
  induction l₁ with
  | nil => intro st; rfl
  | cons g gs ih =>
    intro st
    rw [List.cons_append, runGroups, runGroups, ih]

theorem runGroups_stable (target : String) (dO tO : String → Option String) :
    ∀ (gs : List (List String)) (st : TransState),
      (∀ g ∈ gs, ∀ t ∈ g, pyStrip t = t) →
      gs.Pairwise (fun g₁ g₂ => ∀ t, t ∈ g₁ → t ∉ g₂) →
      (∀ kv ∈ st.tCache, ∀ g ∈ gs, kv.1 ∉ g) →
      ∀ k v, alookup k st.tCache = some v →
        alookup k (runGroups target dO tO st gs).tCache = some v := by
  intro gs
  induction gs with
  | nil => intro st _ _ _ k v h; exact h
  | cons g gs ih =>
    intro st htrim hpw hinv k v h
    rw [runGroups]
    obtain ⟨pre, hpre, hkeys⟩ :=
      translateGroup_tCache_decomp target dO tO st g (htrim g (List.mem_cons_self _ _))
    obtain ⟨kv₀, hkv₀, hk₀⟩ := alookup_some_key_mem k st.tCache v h
    have hknotg : k ∉ g := hk₀ ▸ hinv kv₀ hkv₀ g (List.mem_cons_self _ _)
    apply ih
    · exact fun g' hg' => htrim g' (List.mem_cons_of_mem _ hg')
    · exact (List.pairwise_cons.mp hpw).2
    · intro kv hkv g' hg'
      rw [hpre] at hkv
      rcases List.mem_append.mp hkv with hin | hin
      · exact (List.pairwise_cons.mp hpw).1 g' hg' kv.1 (hkeys kv hin)
      · exact hinv kv hin g' (List.mem_cons_of_mem _ hg')
    · rw [hpre, alookup_append_not_mem k pre st.tCache
        (fun kv hkv hc => hknotg (hc ▸ hkeys kv hkv))]
      exact h

theorem runGroups_tCache_domain (target : String) (dO tO : String → Option String) :
    ∀ (gs : List (List String)) (st : TransState),
      (∀ g ∈ gs, ∀ t ∈ g, pyStrip t = t) →
      ∀ kv ∈ (runGroups target dO tO st gs).tCache,
        kv ∈ st.tCache ∨ ∃ g ∈ gs, kv.1 ∈ g := by
  intro gs
  induction gs with
  | nil => intro st _ kv hkv; exact Or.inl hkv
  | cons g gs ih =>
    intro st htrim kv hkv
    rw [runGroups] at hkv
    rcases ih _ (fun g' hg' => htrim g' (List.mem_cons_of_mem _ hg')) kv hkv with hin | hex
    · obtain ⟨pre, hpre, hkeys⟩ :=
        translateGroup_tCache_decomp target dO tO st g (htrim g (List.mem_cons_self _ _))
      rw [hpre] at hin
      rcases List.mem_append.mp hin with hp | hp
      · exact Or.inr ⟨g, List.mem_cons_self _ _, hkeys kv hp⟩
      · exact Or.inl hp
    · obtain ⟨g', hg', hk⟩ := hex
      exact Or.inr ⟨g', List.mem_cons_of_mem _ hg', hk⟩

/-- Claim C5 counterexample: the translation cache is not write-once.
With the overlapping groups of a and dddd, then bb and dddd (the grouper
can emit overlapping groups, see the claim C1 counterexample), the
second group's translated path rewrites the already-written key dddd
with a different value, so a value observed after the first group is not
stable for the remainder of the run. -/
theorem C5_counterexample :
    ¬ (∀ k v,
        alookup k (runGroups "en" oDetectFail oTransSucc st0
          [["a", "dddd"]]).tCache = some v →
        alookup k (runGroups "en" oDetectFail oTransSucc st0
          [["a", "dddd"], ["bb", "dddd"]]).tCache = some v) := by
  intro h
  have h2 := h "dddd" "ta" (by decide)
  exact absurd h2 (by decide)

/-- Claim C5 (amended): the translation cache is write-once per key
provided the groups of the run are pairwise disjoint (as a partition
would guarantee) and hold trimmed texts: a key-value binding observable
after any prefix of the run is still observable at the end of the run.
With overlapping groups a later group can overwrite a member key with a
different value (see the counterexample). -/
theorem C5_write_once_amended (target : String) (dO tO : String → Option String)
    (groups : List (List String)) (n : Nat) (k v : String)
    (htrim : ∀ g ∈ groups, ∀ t ∈ g, pyStrip t = t)
    (hdisj : groups.Pairwise (fun g₁ g₂ => ∀ t, t ∈ g₁ → t ∉ g₂))
    (h : alookup k (runGroups target dO tO st0 (groups.take n)).tCache = some v) :
    alookup k (runGroups target dO tO st0 groups).tCache = some v := by
  have hpw := hdisj
  rw [← List.take_append_drop n groups] at hpw
  obtain ⟨hpw_take, hpw_drop, hcross⟩ := List.pairwise_append.mp hpw
  have hsplit := (List.take_append_drop n groups).symm
  rw [hsplit, runGroups_append]
  apply runGroups_stable
  · intro g' hg'
    exact htrim g' (List.mem_of_mem_drop hg')
  · exact hpw_drop
  · intro kv hkv g' hg'
    rcases runGroups_tCache_domain target dO tO (groups.take n) st0
        (fun g hg => htrim g (List.mem_of_mem_take hg)) kv hkv with hin | hex
    · cases hin
    · obtain ⟨g, hg, hkmem⟩ := hex
      exact hcross g hg g' hg' kv.1 hkmem
  · exact h

/-- Witness for the amended claim C5: with the disjoint groups aaaa and
bbbb, the binding written for aaaa by the first group is still
observable at the end of the run. -/
theorem C5_write_once_amended_witness :
    alookup "aaaa" (runGroups "en" oDetectFail oTransSucc st0
      [["aaaa"], ["bbbb"]]).tCache = some "taaaa" := by
  apply C5_write_once_amended "en" oDetectFail oTransSucc [["aaaa"], ["bbbb"]] 1
    "aaaa" "taaaa"
  · intro g hg t ht
    rcases List.mem_cons.mp hg with rfl | hg'
    · rw [List.mem_singleton.mp ht]
      rfl
    · rw [List.mem_singleton.mp hg'] at ht
      rw [List.mem_singleton.mp ht]
      rfl
  · refine List.pairwise_cons.mpr ⟨?_, List.pairwise_singleton _ _⟩
    intro g' hg' t ht hc
    rw [List.mem_singleton.mp hg'] at hc
    rw [List.mem_singleton.mp ht] at hc
    exact absurd hc (by decide)
  · decide

/-! ### The DataFrame frame property -/

theorem tPrefix_inj (a b : String) (h : "T_" ++ a = "T_" ++ b) : a = b := by
  have hd := congrArg String.data h
  rw [String.data_append, String.data_append] at hd
  exact String.ext (List.append_cancel_left hd)

theorem colNames_append (df e : DataFrame) :
    colNames (df ++ e) = colNames df ++ colNames e := by
  simp [colNames]

theorem find?_of_mem_colNames (df : DataFrame) (c : String) (h : c ∈ colNames df) :
    ∃ q, df.find? (fun p => p.1 == c) = some q := by
  induction df with
  | nil => cases h
  | cons a t ih =>
    by_cases hac : a.1 = c
    · exact ⟨a, by rw [List.find?_cons_of_pos _ (by simp [hac])]⟩
    · have hc : c ∈ colNames t := by
        rcases List.mem_cons.mp h with hh | hh
        · exact absurd hh.symm hac
        · exact hh
      obtain ⟨q, hq⟩ := ih hc
      exact ⟨q, by rw [List.find?_cons_of_neg _ (by simp [hac]), hq]⟩

theorem getCol_append_left (df e : DataFrame) (c : String) (h : c ∈ colNames df) :
    getCol (df ++ e) c = getCol df c := by
  obtain ⟨q, hq⟩ := find?_of_mem_colNames df c h
  rw [getCol, getCol, List.find?_append, hq, Option.or_some]

theorem setCol_not_mem (df : DataFrame) (c : String) (v : List (Option String))
    (h : c ∉ colNames df) : setCol df c v = df ++ [(c, v)] := by
  induction df with
  | nil => rfl
  | cons a t ih =>
    obtain ⟨a1, a2⟩ := a
    have hne : a1 ≠ c := by
      intro hc
      exact h (by rw [hc] at *; exact List.mem_cons_self _ _)
    rw [setCol, if_neg hne, List.cons_append,
      ih (fun hc => h (List.mem_cons_of_mem _ hc))]

theorem translateLoopDF_spec (target : String) (dO tO : String → Option String)
    (simO : String → Option (Nat → Nat → ℚ)) (df : DataFrame) :
    ∀ (cols : List String) (extra : DataFrame),
      (∀ c ∈ cols, c ∈ colNames df) →
      (∀ c ∈ cols, "T_" ++ c ∉ colNames df) →
      (∀ c ∈ cols, "T_" ++ c ∉ colNames extra) →
      cols.Nodup →
      translateLoopDF target dO tO simO (df ++ extra) cols =
        df ++ extra ++ cols.map (fun c =>
          ("T_" ++ c, ((runColumn target dO tO (simO c) (getCol df c)).1).map some)) := by
  intro cols
  induction cols with
  | nil =>
    intro extra _ _ _ _
    rw [translateLoopDF, List.map_nil, List.append_nil]
  | cons c cs ih =>
    intro extra hin hTdf hTex hnd
    have hcdf : c ∈ colNames df := hin c (List.mem_cons_self _ _)
    rw [translateLoopDF,
      if_pos (by rw [colNames_append]; exact List.mem_append_left _ hcdf),
      getCol_append_left df extra c hcdf,
      setCol_not_mem _ _ _ (by
        rw [colNames_append]
        intro hc
        rcases List.mem_append.mp hc with hc' | hc'
        · exact hTdf c (List.mem_cons_self _ _) hc'
        · exact hTex c (List.mem_cons_self _ _) hc'),
      List.append_assoc df extra _,
      ih (extra ++ [("T_" ++ c, ((runColumn target dO tO (simO c) (getCol df c)).1).map some)])
        (fun c' hc' => hin c' (List.mem_cons_of_mem _ hc'))
        (fun c' hc' => hTdf c' (List.mem_cons_of_mem _ hc'))
        (fun c' hc' => by
          rw [colNames_append]
          intro hc
          rcases List.mem_append.mp hc with hmem | hmem
          · exact hTex c' (List.mem_cons_of_mem _ hc') hmem
          · have : ("T_" ++ c' : String) = "T_" ++ c := by
              simpa [colNames] using hmem
            exact (List.nodup_cons.mp hnd).1 (tPrefix_inj c' c this ▸ hc')
          )
        (List.nodup_cons.mp hnd).2]
    simp [List.append_assoc]

theorem resolveCols_eq (allCols cols : List String) (hne : cols ≠ [])
    (hv : ∀ c ∈ cols, c ∈ allCols) : resolveCols allCols cols = some cols := by
  have hf : cols.filter (fun c => decide (c ∈ allCols)) = cols :=
    List.filter_eq_self.mpr (fun c hc => decide_eq_true (hv c hc))
  rw [resolveCols]
  simp only [hf, List.isEmpty_eq_false.mpr hne]
  rfl

/-- Claim C10 counterexample: when the input table already has a column
named with the derived name of a processed column (here T_a next to a),
that input column is overwritten with the translations of a, so the
output does not contain every input column with its values unchanged. -/
theorem C10_counterexample :
    translateColumnsDF "en" oDetectFail oTransSucc (fun _ => none)
        [("a", [some "hi"]), ("T_a", [some "orig"])] ["a"] =
      some [("a", [some "hi"]), ("T_a", [some "thi"])] ∧
      getCol [("a", [some "hi"]), ("T_a", [some "orig"])] "T_a" = [some "orig"] ∧
      ([some "thi"] : List (Option String)) ≠ [some "orig"] := by
  decide

/-- Claim C10 (amended): provided the selected columns exist, carry no
duplicates, and no selected column's derived name collides with an input
column name, the returned table is exactly the input columns unchanged
followed by one new derived column per selected column, in selection
order; nothing else is added, removed or modified. -/
theorem C10_frame_amended (target : String) (dO tO : String → Option String)
    (simO : String → Option (Nat → Nat → ℚ)) (df : DataFrame) (cols : List String)
    (hne : colNames df ≠ []) (hcne : cols ≠ []) (hnd : cols.Nodup)
    (hv : ∀ c ∈ cols, c ∈ colNames df)
    (hT : ∀ c ∈ cols, "T_" ++ c ∉ colNames df) :
    translateColumnsDF target dO tO simO df cols =
      some (df ++ cols.map (fun c =>
        ("T_" ++ c, ((runColumn target dO tO (simO c) (getCol df c)).1).map some))) := by
  rw [translateColumnsDF, if_neg hne, resolveCols_eq (colNames df) cols hcne hv]
  have hspec := translateLoopDF_spec target dO tO simO df cols [] hv hT
    (fun c _ hc => absurd hc (List.not_mem_nil _)) hnd
  rw [List.append_nil] at hspec
  show some (translateLoopDF target dO tO simO df cols) = _
  rw [hspec]

/-- Witness for the amended claim C10: a one-column table with the
selection a yields the table extended by the single derived column. -/
theorem C10_frame_amended_witness :
    translateColumnsDF "en" oDetectFail oTransSucc (fun _ => none)
        [("a", [some "hi"])] ["a"] =
      some ([("a", [some "hi"])] ++ (["a"].map (fun c =>
        ("T_" ++ c, ((runColumn "en" oDetectFail oTransSucc ((fun _ => none) c)
          (getCol [("a", [some "hi"])] c)).1).map some)))) :=
  C10_frame_amended "en" oDetectFail oTransSucc (fun _ => none)
    [("a", [some "hi"])] ["a"] (by decide) (by decide) (by decide)
    (by decide) (by decide)
